import Mathlib

/-!
# Verification of the indicator computation engine

Shallow embedding of the indicator computation core of the dashboard
repository: the numeric value model, the series utilities, the indicator
library (`streamlit_project/data_fetcher.py`, fallback formula paths, which
the specification fixes as the contract), the indicator configuration
(`streamlit_project/indicator_config.py`) and the orchestrator
(`FinancialDataFetcher.get_technical_indicators`), together with theorems
settling the frozen claims about this code.

Numeric model: pandas computes with IEEE-754 doubles.  We embed a float
value as `FP`: either NaN, a signed infinity, or a finite value carried by
an exact rational.  Arithmetic follows the IEEE special-value rules
(NaN propagation, division of a nonzero finite value by zero giving a
signed infinity, `x / inf = 0`, `0 / 0 = NaN`); rounding of finite results
and signed zeros are abstracted away, which is the standard idealization
and is never load-bearing in any theorem below.
-/

/-- A pandas/NumPy double: NaN, a signed infinity (`true` = positive), or a
finite value idealized as an exact rational. -/
inductive FP where
  | nan : FP
  | inf : Bool → FP
  | fin : ℚ → FP
  deriving DecidableEq

namespace FP

/-- IEEE addition on the embedded values. -/
def add : FP → FP → FP
  | .nan, _ => .nan
  | _, .nan => .nan
  | .inf s, .inf t => if s = t then .inf s else .nan
  | .inf s, .fin _ => .inf s
  | .fin _, .inf t => .inf t
  | .fin a, .fin b => .fin (a + b)

/-- IEEE negation. -/
def neg : FP → FP
  | .nan => .nan
  | .inf s => .inf (!s)
  | .fin a => .fin (-a)

/-- IEEE subtraction. -/
def sub : FP → FP → FP
  | .nan, _ => .nan
  | _, .nan => .nan
  | .inf s, .inf t => if s = t then .nan else .inf s
  | .inf s, .fin _ => .inf s
  | .fin _, .inf t => .inf (!t)
  | .fin a, .fin b => .fin (a - b)

/-- IEEE multiplication (`inf * 0 = NaN`). -/
def mul : FP → FP → FP
  | .nan, _ => .nan
  | _, .nan => .nan
  | .inf s, .inf t => .inf (s == t)
  | .inf s, .fin b => if b = 0 then .nan else .inf (s == decide (0 < b))
  | .fin a, .inf t => if a = 0 then .nan else .inf (t == decide (0 < a))
  | .fin a, .fin b => .fin (a * b)

/-- IEEE division: a nonzero finite value divided by zero is a signed
infinity, `0 / 0` is NaN, a finite value divided by an infinity is `0`
(signed zeros are collapsed). -/
def div : FP → FP → FP
  | .nan, _ => .nan
  | _, .nan => .nan
  | .inf _, .inf _ => .nan
  | .inf s, .fin b => .inf (s == decide (0 ≤ b))
  | .fin _, .inf _ => .fin 0
  | .fin a, .fin b =>
      if b = 0 then (if a = 0 then .nan else .inf (decide (0 < a)))
      else .fin (a / b)

/-- IEEE absolute value. -/
def fabs : FP → FP
  | .nan => .nan
  | .inf _ => .inf true
  | .fin a => .fin (abs a)

/-- IEEE `<` comparison as NumPy evaluates it: any comparison involving NaN
is `false`. -/
def flt : FP → FP → Bool
  | .nan, _ => false
  | _, .nan => false
  | .inf s, .inf t => !s && t
  | .inf s, .fin _ => !s
  | .fin _, .inf t => t
  | .fin a, .fin b => decide (a < b)

/-- NaN-skipping binary max, as `DataFrame.max(axis=1)` (skipna default)
combines values. -/
def max2 : FP → FP → FP
  | .nan, y => y
  | x, .nan => x
  | x, y => if flt x y then y else x

/-- NaN-skipping binary min. -/
def min2 : FP → FP → FP
  | .nan, y => y
  | x, .nan => x
  | x, y => if flt x y then x else y

end FP

/-- An aligned numeric column, one `FP` entry per row of the input. -/
abbrev Series := List FP

/-- Lift a raw (finite) data column into the float world. -/
def fpOfQ (xs : List ℚ) : Series := xs.map FP.fin

/-- pandas `Series.diff()`: NaN at index 0, adjacent difference after. -/
def diffS (xs : Series) : Series :=
  (List.range xs.length).map fun i =>
    if i = 0 then FP.nan else (xs.getD i FP.nan).sub (xs.getD (i - 1) FP.nan)

/-- pandas `Series.shift(k)` for `k ≥ 0`: `k` leading NaN, values move
forward. -/
def shiftS (k : ℕ) (xs : Series) : Series :=
  (List.range xs.length).map fun i =>
    if i < k then FP.nan else xs.getD (i - k) FP.nan

/-- pandas `Series.shift(-k)`: values move backward, `k` trailing NaN
(out-of-range reads default to NaN). -/
def shiftBackS (k : ℕ) (xs : Series) : Series :=
  (List.range xs.length).map fun i => xs.getD (i + k) FP.nan

/-- Sum of a window, with IEEE NaN propagation. -/
def fpSum (l : List FP) : FP := l.foldr FP.add (FP.fin 0)

/-- The length-`w` window of values ending at index `i` (indices
`i+1-w … i`), the slice a pandas rolling aggregation reads at `i`. -/
def windowAt (w i : ℕ) (xs : Series) : List FP := (xs.take (i + 1)).drop (i + 1 - w)

/-- Does a window contain a NaN?  Rolling aggregations with the default
`min_periods = window` yield NaN on such windows. -/
def hasNan (l : List FP) : Bool := l.any fun x => decide (x = FP.nan)

/-- pandas `.rolling(window=w).mean()`: NaN through the warm-up prefix
(`i + 1 < w`), afterwards the window sum divided by `w`; a NaN inside the
window propagates through the sum. -/
def rolling_mean (w : ℕ) (xs : Series) : Series :=
  (List.range xs.length).map fun i =>
    if i + 1 < w then FP.nan else (fpSum (windowAt w i xs)).div (FP.fin w)

/-- pandas `.rolling(window=w).sum()`. -/
def rolling_sum (w : ℕ) (xs : Series) : Series :=
  (List.range xs.length).map fun i =>
    if i + 1 < w then FP.nan else fpSum (windowAt w i xs)

/-- pandas `.rolling(window=w).max()`: NaN during warm-up or when the
window contains a NaN (default `min_periods`). -/
def rolling_max (w : ℕ) (xs : Series) : Series :=
  (List.range xs.length).map fun i =>
    if i + 1 < w then FP.nan else
    if hasNan (windowAt w i xs) then FP.nan else
    (windowAt w i xs).foldr FP.max2 FP.nan

/-- pandas `.rolling(window=w).min()`. -/
def rolling_min (w : ℕ) (xs : Series) : Series :=
  (List.range xs.length).map fun i =>
    if i + 1 < w then FP.nan else
    if hasNan (windowAt w i xs) then FP.nan else
    (windowAt w i xs).foldr FP.min2 FP.nan

/-- Rational stand-in for the IEEE square root (exact on perfect squares).
The true IEEE result is irrational in general; no theorem below depends on
the value of this function, it only keeps the Bollinger-band column
computable. -/
def fpSqrt : FP → FP
  | .nan => .nan
  | .inf s => if s then .inf true else .nan
  | .fin a => if a < 0 then .nan else .fin (Rat.sqrt a)

/-- pandas `.rolling(window=w).std()` with the default `ddof = 1` (sample
standard deviation); a single-element window gives `0 / 0 = NaN`, as
pandas does. -/
def rolling_std (w : ℕ) (xs : Series) : Series :=
  (List.range xs.length).map fun i =>
    if i + 1 < w then FP.nan else
    let win := windowAt w i xs
    let m := (fpSum win).div (FP.fin w)
    fpSqrt ((fpSum (win.map fun x => (x.sub m).mul (x.sub m))).div (FP.fin ((w - 1 : ℕ))))

/-- Running total (`cumsum`), defined from index 0. -/
def cumsum (xs : Series) : Series :=
  (List.range xs.length).map fun i => fpSum (xs.take (i + 1))

/-- State-passing core of pandas `ewm(span=…).mean()` with the default
`adjust=True`: carries the running weighted numerator and the running
weight total, emitting their quotient at every step. -/
def ewmAux (a : ℚ) : ℚ → ℚ → List ℚ → List ℚ
  | _, _, [] => []
  | num, den, x :: xs =>
      ((1 - a) * num + x) / ((1 - a) * den + 1) ::
        ewmAux a ((1 - a) * num + x) ((1 - a) * den + 1) xs

/-- pandas `Series.ewm(span=span).mean()` (default `adjust=True`) on a
finite-valued column, with smoothing factor `α = 2 / (span + 1)`. -/
def ewm_mean (xs : List ℚ) (span : ℕ) : List ℚ :=
  ewmAux (2 / ((span : ℚ) + 1)) 0 0 xs

/-- The OHLCV input frame.  The `open` column exists in the data but is
never read by any indicator, so it is not carried; `volume` is optional
(`none` embeds a frame without a volume column). -/
structure OHLCV where
  high : List ℚ
  low : List ℚ
  close : List ℚ
  volume : Option (List ℚ)
  deriving DecidableEq

/-- Number of rows (`len(price_data)`). -/
def OHLCV.length (d : OHLCV) : ℕ := d.close.length

/-- An output DataFrame: named columns. -/
abbrev Frame := List (String × Series)

/-- Column access `frame[name]` (the embedded frames always carry the
looked-up column, so the default is never reached on the code's paths). -/
def colF (f : Frame) (name : String) : Series := (f.lookup name).getD []

/-!
## Indicator library

One definition per `FinancialDataFetcher._compute_*` method, embedding the
method's fallback formula (the primary branch delegates to an external
provider; the specification fixes the fallback formula as the contract).
A pandas call that raises for a degenerate parameter (`rolling(window=0)`,
`ewm(span=0)`, `np.histogram(…, bins=0)`) is embedded as `none`: in the
source the exception either escapes the method or is caught by the
method's own bare `except` returning `None`, and both surface to the
orchestrator as "no result".
-/

/-- `_compute_sma` fallback: `close.rolling(window).mean()`. -/
def compute_sma (d : OHLCV) (window : ℕ) : Option Frame :=
  if window = 0 then none else
  some [("sma", rolling_mean window (fpOfQ d.close))]

/-- `_compute_ema` fallback: `close.ewm(span=window).mean()`. -/
def compute_ema (d : OHLCV) (window : ℕ) : Option Frame :=
  if window = 0 then none else
  some [("ema", fpOfQ (ewm_mean d.close window))]

/-- The RSI column of `_compute_rsi`: gains and losses from `close.diff()`
gated through `.where` (NaN compares false, so index 0 contributes `0`),
rolling means over the window, `rs = gain / loss`,
`rsi = 100 - 100 / (1 + rs)`. -/
def rsiSeries (close : List ℚ) (window : ℕ) : Series :=
  let delta := diffS (fpOfQ close)
  let gain := rolling_mean window (delta.map fun x => if (FP.fin 0).flt x then x else FP.fin 0)
  let loss := rolling_mean window ((delta.map fun x => if x.flt (FP.fin 0) then x else FP.fin 0).map FP.neg)
  let rs := List.zipWith FP.div gain loss
  rs.map fun r => (FP.fin 100).sub ((FP.fin 100).div ((FP.fin 1).add r))

/-- `_compute_rsi` fallback. -/
def compute_rsi (d : OHLCV) (window : ℕ) : Option Frame :=
  if window = 0 then none else
  some [("rsi", rsiSeries d.close window)]

/-- `_compute_macd` fallback: fast/slow EMAs of close, their difference,
an EMA of that difference, and the histogram. -/
def compute_macd (d : OHLCV) (fast slow signal : ℕ) : Option Frame :=
  if fast = 0 ∨ slow = 0 ∨ signal = 0 then none else
  let ema_fast := ewm_mean d.close fast
  let ema_slow := ewm_mean d.close slow
  let macd_line := List.zipWith (· - ·) ema_fast ema_slow
  let signal_line := ewm_mean macd_line signal
  let histogram := List.zipWith (· - ·) macd_line signal_line
  some [("macd", fpOfQ macd_line), ("signal", fpOfQ signal_line), ("hist", fpOfQ histogram)]

/-- `_compute_stochastic` fallback. -/
def compute_stochastic (d : OHLCV) (k dd smooth_k : ℕ) : Option Frame :=
  if k = 0 ∨ dd = 0 ∨ smooth_k = 0 then none else
  let low_k := rolling_min k (fpOfQ d.low)
  let high_k := rolling_max k (fpOfQ d.high)
  let k_percent := List.zipWith (fun c lh => ((FP.fin 100).mul (c.sub lh.1)).div (lh.2.sub lh.1))
    (fpOfQ d.close) (low_k.zip high_k)
  let k_percent_smooth := rolling_mean smooth_k k_percent
  let d_percent := rolling_mean dd k_percent_smooth
  some [("%K", k_percent_smooth), ("%D", d_percent)]

/-- The true-range column of `_compute_atr`: the NaN-skipping row maximum
of `high - low`, `|high - prev_close|`, `|low - prev_close|`. -/
def trueRange (d : OHLCV) : Series :=
  let highF := fpOfQ d.high
  let lowF := fpOfQ d.low
  let prevClose := shiftS 1 (fpOfQ d.close)
  let high_low := List.zipWith FP.sub highF lowF
  let high_close := (List.zipWith FP.sub highF prevClose).map FP.fabs
  let low_close := (List.zipWith FP.sub lowF prevClose).map FP.fabs
  List.zipWith FP.max2 (List.zipWith FP.max2 high_low high_close) low_close

/-- `_compute_atr` fallback: rolling mean of the true range. -/
def compute_atr (d : OHLCV) (window : ℕ) : Option Frame :=
  if window = 0 then none else
  some [("atr", rolling_mean window (trueRange d))]

/-- `_compute_bollinger_bands` fallback. -/
def compute_bollinger_bands (d : OHLCV) (window : ℕ) (std_dev : ℚ) : Option Frame :=
  if window = 0 then none else
  let sma := rolling_mean window (fpOfQ d.close)
  let std := rolling_std window (fpOfQ d.close)
  let upper := List.zipWith (fun m s => m.add (s.mul (FP.fin std_dev))) sma std
  let lower := List.zipWith (fun m s => m.sub (s.mul (FP.fin std_dev))) sma std
  some [("bb_upper", upper), ("bb_mid", sma), ("bb_lower", lower)]

/-- `_compute_keltner_channels` fallback: EMA midline, ATR band (the
source's `'atr' in columns` check always holds on this path). -/
def compute_keltner_channels (d : OHLCV) (window : ℕ) (multiplier : ℚ) : Option Frame :=
  if window = 0 then none else
  let ema := fpOfQ (ewm_mean d.close window)
  match compute_atr d window with
  | none => none
  | some atrF =>
      let atr := colF atrF "atr"
      let upper := List.zipWith (fun e a => e.add (a.mul (FP.fin multiplier))) ema atr
      let lower := List.zipWith (fun e a => e.sub (a.mul (FP.fin multiplier))) ema atr
      some [("kel_upper", upper), ("kel_mid", ema), ("kel_lower", lower)]

/-- The `plus_dm` array of `_compute_dmi`:
`np.where((high_diff > low_diff) & (high_diff > 0), high_diff, 0)` where
`high_diff = high.diff()` and `low_diff = low.diff()`. -/
def dmi_plus_dm (d : OHLCV) : Series :=
  List.zipWith (fun hd ld => if ld.flt hd && (FP.fin 0).flt hd then hd else FP.fin 0)
    (diffS (fpOfQ d.high)) (diffS (fpOfQ d.low))

/-- The `minus_dm` array of `_compute_dmi`:
`np.where((low_diff > high_diff) & (low_diff > 0), low_diff, 0)` — note
the source gates on and emits the raw low delta `low[i] - low[i-1]`, not
the down-move `low[i-1] - low[i]`. -/
def dmi_minus_dm (d : OHLCV) : Series :=
  List.zipWith (fun hd ld => if hd.flt ld && (FP.fin 0).flt ld then ld else FP.fin 0)
    (diffS (fpOfQ d.high)) (diffS (fpOfQ d.low))

/-- `_compute_dmi`: `±DI = 100 * rolling_mean(±DM, window) / ATR(window)`
(the source's `atr_data is not None` guard corresponds to the `match`). -/
def compute_dmi (d : OHLCV) (window : ℕ) : Option Frame :=
  match compute_atr d window with
  | none => none
  | some atrF =>
      let atr := colF atrF "atr"
      let plus_di := List.zipWith FP.div
        ((rolling_mean window (dmi_plus_dm d)).map ((FP.fin 100).mul ·)) atr
      let minus_di := List.zipWith FP.div
        ((rolling_mean window (dmi_minus_dm d)).map ((FP.fin 100).mul ·)) atr
      some [("+di", plus_di), ("-di", minus_di)]

/-- `_compute_adx` fallback: DX from the DMI columns, then a rolling mean
over the same window. -/
def compute_adx (d : OHLCV) (window : ℕ) : Option Frame :=
  match compute_dmi d window with
  | none => none
  | some dmiF =>
      let plus_di := colF dmiF "+di"
      let minus_di := colF dmiF "-di"
      let dx := List.zipWith (fun p m => ((FP.fin 100).mul ((p.sub m).fabs)).div (p.add m))
        plus_di minus_di
      some [("adx", rolling_mean window dx)]

/-- `_compute_ichimoku`. -/
def compute_ichimoku (d : OHLCV) (conversion base span_b : ℕ) : Option Frame :=
  if conversion = 0 ∨ base = 0 ∨ span_b = 0 then none else
  let half := fun (a b : FP) => (a.add b).div (FP.fin 2)
  let conversion_line := List.zipWith half
    (rolling_max conversion (fpOfQ d.high)) (rolling_min conversion (fpOfQ d.low))
  let base_line := List.zipWith half
    (rolling_max base (fpOfQ d.high)) (rolling_min base (fpOfQ d.low))
  let leading_span_a := shiftS base (List.zipWith half conversion_line base_line)
  let leading_span_b := shiftS base (List.zipWith half
    (rolling_max span_b (fpOfQ d.high)) (rolling_min span_b (fpOfQ d.low)))
  let lagging_span := shiftBackS base (fpOfQ d.close)
  some [("conversion_line", conversion_line), ("base_line", base_line),
    ("leading_span_a", leading_span_a), ("leading_span_b", leading_span_b),
    ("lagging_span", lagging_span)]

/-- `_compute_obv` fallback: cumulative sum of signed volume (the
orchestrator only reaches it with a volume column present, passed here
explicitly). -/
def compute_obv (d : OHLCV) (vol : List ℚ) : Frame :=
  let price_change := diffS (fpOfQ d.close)
  let volume_direction := List.zipWith
    (fun pc v => if (FP.fin 0).flt pc then v else if pc.flt (FP.fin 0) then v.neg else FP.fin 0)
    price_change (fpOfQ vol)
  [("obv", cumsum volume_direction)]

/-- The typical price `(high + low + close) / 3` as raw rationals. -/
def typicalPrice (d : OHLCV) : List ℚ :=
  List.zipWith (fun hl c => (hl.1 + hl.2 + c) / 3) (d.high.zip d.low) d.close

/-- `_compute_mfi`: when the volume column is absent, `data['volume']`
raises `KeyError` inside the method's own `try`, whose bare `except`
returns `None` — embedded as the `none` branch. -/
def compute_mfi (d : OHLCV) (window : ℕ) : Option Frame :=
  match d.volume with
  | none => none
  | some vol =>
      if window = 0 then none else
      let typical := typicalPrice d
      let money_flow := List.zipWith (· * ·) typical vol
      let price_change := diffS (fpOfQ typical)
      let positive_flow := rolling_sum window (List.zipWith
        (fun m pc => if (FP.fin 0).flt pc then m else FP.fin 0) (fpOfQ money_flow) price_change)
      let negative_flow := rolling_sum window (List.zipWith
        (fun m pc => if pc.flt (FP.fin 0) then m else FP.fin 0) (fpOfQ money_flow) price_change)
      let money_flow_quot := List.zipWith FP.div positive_flow (negative_flow.map FP.fabs)
      some [("mfi", money_flow_quot.map fun r =>
        (FP.fin 100).sub ((FP.fin 100).div ((FP.fin 1).add r)))]

/-- `_compute_vwap`: cumulative `typical_price * volume` over cumulative
volume (from series start, not session-reset). -/
def compute_vwap (d : OHLCV) (vol : List ℚ) : Frame :=
  let volume_price := List.zipWith (· * ·) (typicalPrice d) vol
  [("vwap", List.zipWith FP.div (cumsum (fpOfQ volume_price)) (cumsum (fpOfQ vol)))]

/-- `_compute_volume_profile`: `np.histogram(close, bins, weights=volume)`
— `bins` equal-width buckets over the close range (degenerate zero-width
range widened by ±0.5 as NumPy does), last bin right-closed; output is a
bin-indexed frame, not time-aligned. -/
def compute_volume_profile (d : OHLCV) (vol : List ℚ) (bins : ℕ) : Option Frame :=
  if bins = 0 then none else
  let vals := d.close
  let mn := vals.foldr min (vals.headD 0)
  let mx := vals.foldr max (vals.headD 0)
  let lo := if mn = mx then mn - 1/2 else mn
  let hi := if mn = mx then mx + 1/2 else mx
  let width := (hi - lo) / bins
  let centers := (List.range bins).map fun j => lo + width * j + width / 2
  let sums := (List.range bins).map fun j =>
    ((vals.zip vol).filter fun p => decide (lo + width * j ≤ p.1) &&
        (decide (p.1 < lo + width * (j + 1)) || (j == bins - 1 && decide (p.1 ≤ hi)))).foldr
      (fun p acc => p.2 + acc) 0
  some [("price_bin", fpOfQ centers), ("volume_sum", fpOfQ sums)]

/-!
## Indicator configuration (`indicator_config.py`)
-/

/-- The `IndicatorConfig` dataclass.  Integer parameters are embedded as
`ℕ` (the UI builds them from positive option lists and bounded inputs),
float parameters as `ℚ`; `sma`/`ema` are optional period lists. -/
structure IndicatorConfig where
  sma : Option (List ℕ) := none
  ema : Option (List ℕ) := none
  ichimoku : Bool := false
  ichimoku_params : ℕ × ℕ × ℕ := (9, 26, 52)
  adx : Bool := false
  adx_length : ℕ := 14
  dmi : Bool := false
  dmi_length : ℕ := 14
  rsi : Bool := false
  rsi_length : ℕ := 14
  macd : Bool := false
  macd_fast : ℕ := 12
  macd_slow : ℕ := 26
  macd_signal : ℕ := 9
  stochastic : Bool := false
  stoch_k : ℕ := 14
  stoch_d : ℕ := 3
  stoch_smooth_k : ℕ := 3
  atr : Bool := false
  atr_length : ℕ := 14
  bbands : Bool := false
  bb_length : ℕ := 20
  bb_std : ℚ := 2
  keltner : Bool := false
  kel_length : ℕ := 20
  kel_mult : ℚ := 3 / 2
  obv : Bool := false
  mfi : Bool := false
  mfi_length : ℕ := 14
  vwap : Bool := false
  volume_profile : Bool := false
  volume_profile_bins : ℕ := 50
  advance_decline : Bool := false
  percent_above_ma : Bool := false
  breadth_ma_length : ℕ := 50
  deriving DecidableEq

/-- One entry of the `get_active_indicators` result: the dictionary key
together with its parameter payload. -/
inductive ActiveInd where
  | sma (windows : List ℕ)
  | ema (windows : List ℕ)
  | ichimoku (conversion base span_b : ℕ)
  | adx (length : ℕ)
  | dmi (length : ℕ)
  | rsi (length : ℕ)
  | macd (fast slow signal : ℕ)
  | stochastic (k d smooth_k : ℕ)
  | atr (length : ℕ)
  | bbands (length : ℕ) (std : ℚ)
  | keltner (length : ℕ) (mult : ℚ)
  | obv
  | mfi (length : ℕ)
  | vwap
  | volumeProfile (bins : ℕ)
  | advanceDecline
  | percentAboveMa (length : ℕ)
  deriving DecidableEq

/-- `IndicatorConfig.get_active_indicators`, in the source's insertion
order.  Python truthiness of `self.sma` makes both `None` and the empty
list inactive, hence the nonempty-list pattern. -/
def get_active_indicators (c : IndicatorConfig) : List ActiveInd :=
  (match c.sma with | some (w :: ws) => [ActiveInd.sma (w :: ws)] | _ => []) ++
  (match c.ema with | some (w :: ws) => [ActiveInd.ema (w :: ws)] | _ => []) ++
  (if c.ichimoku then
    [ActiveInd.ichimoku c.ichimoku_params.1 c.ichimoku_params.2.1 c.ichimoku_params.2.2]
   else []) ++
  (if c.adx then [ActiveInd.adx c.adx_length] else []) ++
  (if c.dmi then [ActiveInd.dmi c.dmi_length] else []) ++
  (if c.rsi then [ActiveInd.rsi c.rsi_length] else []) ++
  (if c.macd then [ActiveInd.macd c.macd_fast c.macd_slow c.macd_signal] else []) ++
  (if c.stochastic then [ActiveInd.stochastic c.stoch_k c.stoch_d c.stoch_smooth_k] else []) ++
  (if c.atr then [ActiveInd.atr c.atr_length] else []) ++
  (if c.bbands then [ActiveInd.bbands c.bb_length c.bb_std] else []) ++
  (if c.keltner then [ActiveInd.keltner c.kel_length c.kel_mult] else []) ++
  (if c.obv then [ActiveInd.obv] else []) ++
  (if c.mfi then [ActiveInd.mfi c.mfi_length] else []) ++
  (if c.vwap then [ActiveInd.vwap] else []) ++
  (if c.volume_profile then [ActiveInd.volumeProfile c.volume_profile_bins] else []) ++
  (if c.advance_decline then [ActiveInd.advanceDecline] else []) ++
  (if c.percent_above_ma then [ActiveInd.percentAboveMa c.breadth_ma_length] else [])

/-- `IndicatorConfig.from_preset`: the five fixed presets, any other name
falling through to the all-default configuration (`presets.get(name, cls())`). -/
def from_preset (preset_name : String) : IndicatorConfig :=
  if preset_name = "minimal" then
    { sma := some [20, 50], rsi := true, atr := true }
  else if preset_name = "trend_follower" then
    { ema := some [20, 50, 200], adx := true, macd := true }
  else if preset_name = "mean_reversion" then
    { bbands := true, bb_length := 20, bb_std := 2, stochastic := true,
      stoch_k := 14, stoch_d := 3, stoch_smooth_k := 3, rsi := true, rsi_length := 14 }
  else if preset_name = "intraday" then
    { vwap := true, obv := true, keltner := true, kel_length := 20, kel_mult := 3 / 2,
      adx := true, adx_length := 14 }
  else if preset_name = "comprehensive" then
    { sma := some [20, 50, 200], ema := some [12, 26], rsi := true, macd := true,
      bbands := true, atr := true, obv := true, vwap := true }
  else
    { }

/-- A value slot of the cache-key tuple: the possible field values of the
dataclass as `to_cache_key` serializes them (`None`, bool, int, float,
a period list left as a list when falsy, a period list converted to a
tuple when truthy, or the fixed ichimoku parameter triple). -/
inductive CVal where
  | noneV
  | b (x : Bool)
  | n (x : ℕ)
  | q (x : ℚ)
  | listN (xs : List ℕ)
  | tupN (xs : List ℕ)
  | tri (x : ℕ × ℕ × ℕ)
  deriving DecidableEq

/-- The `sma`/`ema` slot: `None` stays `None`, a truthy (nonempty) list
becomes a tuple, a falsy (empty) list is left as a list. -/
def packPeriods : Option (List ℕ) → CVal
  | none => CVal.noneV
  | some [] => CVal.listN []
  | some (w :: ws) => CVal.tupN (w :: ws)

/-- `IndicatorConfig.to_cache_key`: `tuple(sorted(asdict(self).items()))`
— the 35 `(field name, value)` pairs in ascending field-name order. -/
def to_cache_key (c : IndicatorConfig) : List (String × CVal) :=
  [("advance_decline", CVal.b c.advance_decline),
   ("adx", CVal.b c.adx),
   ("adx_length", CVal.n c.adx_length),
   ("atr", CVal.b c.atr),
   ("atr_length", CVal.n c.atr_length),
   ("bb_length", CVal.n c.bb_length),
   ("bb_std", CVal.q c.bb_std),
   ("bbands", CVal.b c.bbands),
   ("breadth_ma_length", CVal.n c.breadth_ma_length),
   ("dmi", CVal.b c.dmi),
   ("dmi_length", CVal.n c.dmi_length),
   ("ema", packPeriods c.ema),
   ("ichimoku", CVal.b c.ichimoku),
   ("ichimoku_params", CVal.tri c.ichimoku_params),
   ("kel_length", CVal.n c.kel_length),
   ("kel_mult", CVal.q c.kel_mult),
   ("keltner", CVal.b c.keltner),
   ("macd", CVal.b c.macd),
   ("macd_fast", CVal.n c.macd_fast),
   ("macd_signal", CVal.n c.macd_signal),
   ("macd_slow", CVal.n c.macd_slow),
   ("mfi", CVal.b c.mfi),
   ("mfi_length", CVal.n c.mfi_length),
   ("obv", CVal.b c.obv),
   ("percent_above_ma", CVal.b c.percent_above_ma),
   ("rsi", CVal.b c.rsi),
   ("rsi_length", CVal.n c.rsi_length),
   ("sma", packPeriods c.sma),
   ("stoch_d", CVal.n c.stoch_d),
   ("stoch_k", CVal.n c.stoch_k),
   ("stoch_smooth_k", CVal.n c.stoch_smooth_k),
   ("stochastic", CVal.b c.stochastic),
   ("volume_profile", CVal.b c.volume_profile),
   ("volume_profile_bins", CVal.n c.volume_profile_bins),
   ("vwap", CVal.b c.vwap)]

/-!
## Orchestrator (`FinancialDataFetcher.get_technical_indicators`)

The per-indicator loop body: each active indicator contributes its entries
to the result mapping when its guard holds and its computation returns a
result.  A `none` from a computation embeds an exception caught by the
per-indicator `except` — it ends that indicator's branch (for `sma`/`ema`,
also abandoning the remaining windows of the same branch, as the `try`
wraps the whole inner loop) and the loop continues with the next
indicator.
-/

/-- The `sma`/`ema` inner loop: per window, guard `len(price_data) >=
window`, then compute and record under `f'{family}_{window}'`; an
exception (`none`) abandons the rest of the branch, keeping entries
already recorded. -/
def windowLoop (fam : String) (d : OHLCV) (compute : OHLCV → ℕ → Option Frame) :
    List ℕ → List (String × Frame)
  | [] => []
  | w :: ws =>
      if d.length ≥ w then
        match compute d w with
        | none => []
        | some r => (fam ++ "_" ++ toString w, r) :: windowLoop fam d compute ws
      else windowLoop fam d compute ws

/-- A guarded single-result branch of the orchestrator loop. -/
def guardedEntry (key : String) (guard : Bool) (r : Option Frame) : List (String × Frame) :=
  if guard then
    match r with
    | none => []
    | some f => [(key, f)]
  else []

/-- One iteration of the orchestrator's `for indicator_name, params in
active_indicators.items()` loop, with the source's guards.  The
`advance_decline` and `percent_above_ma` names match no branch and
contribute nothing. -/
def indicatorBranch (d : OHLCV) : ActiveInd → List (String × Frame)
  | .sma ws => windowLoop "sma" d compute_sma ws
  | .ema ws => windowLoop "ema" d compute_ema ws
  | .rsi p => guardedEntry "rsi" (d.length ≥ p + 1) (compute_rsi d p)
  | .macd f s g => guardedEntry "macd" (d.length ≥ s + g) (compute_macd d f s g)
  | .stochastic k dd sk => guardedEntry "stochastic" (d.length ≥ k + dd) (compute_stochastic d k dd sk)
  | .atr p => guardedEntry "atr" (d.length ≥ p) (compute_atr d p)
  | .bbands len std => guardedEntry "bbands" (d.length ≥ len) (compute_bollinger_bands d len std)
  | .keltner len mult => guardedEntry "keltner" (d.length ≥ len) (compute_keltner_channels d len mult)
  | .adx p => guardedEntry "adx" (d.length ≥ p) (compute_adx d p)
  | .dmi p => guardedEntry "dmi" (d.length ≥ p) (compute_dmi d p)
  | .ichimoku conv base spanB =>
      guardedEntry "ichimoku" (d.length ≥ max conv (max base spanB))
        (compute_ichimoku d conv base spanB)
  | .obv =>
      match d.volume with
      | some vol => [("obv", compute_obv d vol)]
      | none => []
  | .mfi p =>
      match d.volume with
      | some _ => guardedEntry "mfi" (d.length ≥ p) (compute_mfi d p)
      | none => []
  | .vwap =>
      match d.volume with
      | some vol => [("vwap", compute_vwap d vol)]
      | none => []
  | .volumeProfile bins =>
      match d.volume with
      | some vol => guardedEntry "volume_profile" true (compute_volume_profile d vol bins)
      | none => []
  | .advanceDecline => []
  | .percentAboveMa _ => []

/-- The orchestrator's result mapping, as the insertion sequence of the
`indicators` dictionary. -/
def orchestrate (c : IndicatorConfig) (d : OHLCV) : List (String × Frame) :=
  (get_active_indicators c).flatMap (indicatorBranch d)

/-- `FinancialDataFetcher.get_technical_indicators`, from the point where
the fetched price data is in hand (fetching is the excluded collaborator;
the provider-unavailable early return is likewise `None`).  A `None`
configuration defaults to `IndicatorConfig()`; `None` or empty price data
short-circuits to `None`. -/
def get_technical_indicators (price_data : Option OHLCV)
    (config : Option IndicatorConfig) : Option (List (String × Frame)) :=
  let c := config.getD { }
  match price_data with
  | none => none
  | some d => if d.length = 0 then none else some (orchestrate c d)

/-!
## Concrete inputs used by counterexamples and witnesses
-/

/-- A zero-row OHLCV frame (`price_data.empty`). -/
def emptyOHLCV : OHLCV := { high := [], low := [], close := [], volume := none }

/-- A small frame without a volume column. -/
def noVolumeOHLCV : OHLCV :=
  { high := [10, 11, 12], low := [5, 6, 7], close := [7, 8, 9], volume := none }

/-- Two rows on which both the high and the low rise: up-move `1`,
down-move `-2` (the low rose by `2`). -/
def dmiExample : OHLCV := { high := [10, 11], low := [5, 7], close := [6, 8], volume := none }

/-- A one-row frame. -/
def tinyOHLCV : OHLCV := { high := [10], low := [5], close := [7], volume := none }

/-!
## Claim theorems
-/

/-- C1 (counterexample): on an empty OHLCV series the orchestrator
returns `None`, not an empty mapping as claimed. -/
theorem gti_empty_counterexample :
    get_technical_indicators (some emptyOHLCV) (some { }) = none ∧
      get_technical_indicators (some emptyOHLCV) (some { }) ≠ some [] := by
  refine ⟨rfl, ?_⟩
  intro h
  rw [show get_technical_indicators (some emptyOHLCV) (some { }) = none from rfl] at h
  exact Option.noConfusion h

/-- C1 (amended): for every configuration, when the OHLCV series is
absent (`None`) or empty, `get_technical_indicators` returns `None` — not
a raised error, and not an empty mapping. -/
theorem gti_empty_or_absent_none (price_data : Option OHLCV)
    (config : Option IndicatorConfig)
    (h : price_data = none ∨ ∃ d, price_data = some d ∧ d.length = 0) :
    get_technical_indicators price_data config = none := by
  rcases h with h | ⟨d, rfl, hd⟩
  · subst h; rfl
  · simp [get_technical_indicators, hd]

/-- C1 (witness): the amended statement at the empty frame with a `None`
configuration. -/
theorem gti_empty_or_absent_none_witness :
    ((some emptyOHLCV : Option OHLCV) = none ∨
      ∃ d, (some emptyOHLCV : Option OHLCV) = some d ∧ d.length = 0) ∧
      get_technical_indicators (some emptyOHLCV) none = none :=
  ⟨Or.inr ⟨emptyOHLCV, rfl, rfl⟩,
    gti_empty_or_absent_none (some emptyOHLCV) none (Or.inr ⟨emptyOHLCV, rfl, rfl⟩)⟩

/-- C2 (counterexample): called directly on a frame without a volume
column, `_compute_mfi` returns `None` silently — it does not fail with an
error as the claim requires. -/
theorem compute_mfi_missing_volume_counterexample :
    compute_mfi noVolumeOHLCV 14 = none := rfl

/-- C2 (amended): for every input frame lacking the volume column and
every window, `_compute_mfi` called directly returns `None` (its bare
`except` swallows the `KeyError`), rather than raising. -/
theorem compute_mfi_missing_volume_none (d : OHLCV) (window : ℕ)
    (h : d.volume = none) : compute_mfi d window = none := by
  unfold compute_mfi
  rw [h]

/-- C2 (witness): the amended statement at a concrete frame and window. -/
theorem compute_mfi_missing_volume_none_witness :
    noVolumeOHLCV.volume = none ∧ compute_mfi noVolumeOHLCV 5 = none :=
  ⟨rfl, compute_mfi_missing_volume_none noVolumeOHLCV 5 rfl⟩

/-- C3 (code evaluated at the failing input): on `dmiExample`
(up-move `1 > 0` also exceeds the down-move `-2`; the down-move is
negative), the standard DMI of the claim gives `+DM = [_, 1]`,
`−DM = [_, 0]`, but the code's gating on the raw low delta yields
`plus_dm = [0, 0]` and `minus_dm = [0, 2]`: a rising low is counted as
negative directional movement. -/
theorem dmi_dm_code_eval :
    dmi_plus_dm dmiExample = [FP.fin 0, FP.fin 0] ∧
      dmi_minus_dm dmiExample = [FP.fin 0, FP.fin 2] := by
  constructor <;>
    norm_num [dmi_plus_dm, dmi_minus_dm, dmiExample, diffS, fpOfQ, FP.sub, FP.flt,
      List.zipWith, List.range_succ]

/-- C6: the `trend_follower` preset activates exactly EMA `[20, 50, 200]`,
ADX with length 14 and MACD with `(12, 26, 9)`, in this order and nothing
else. -/
theorem trend_follower_active_exact :
    get_active_indicators (from_preset "trend_follower") =
      [ActiveInd.ema [20, 50, 200], ActiveInd.adx 14, ActiveInd.macd 12 26 9] := by
  decide

/-- C7: `from_preset` on any unrecognized preset name returns the default
configuration, whose active-indicator mapping is empty (the function is
total by construction — it cannot fail). -/
theorem from_preset_unknown_inactive (preset_name : String)
    (h : preset_name ∉
      ["minimal", "trend_follower", "mean_reversion", "intraday", "comprehensive"]) :
    get_active_indicators (from_preset preset_name) = [] := by
  simp only [List.mem_cons, List.not_mem_nil, or_false, not_or] at h
  obtain ⟨h1, h2, h3, h4, h5⟩ := h
  simp only [from_preset, if_neg h1, if_neg h2, if_neg h3, if_neg h4, if_neg h5]
  rfl

/-- C7 (witness): the unknown name `"nonexistent"`. -/
theorem from_preset_unknown_inactive_witness :
    "nonexistent" ∉
        ["minimal", "trend_follower", "mean_reversion", "intraday", "comprehensive"] ∧
      get_active_indicators (from_preset "nonexistent") = [] :=
  ⟨by decide, from_preset_unknown_inactive "nonexistent" (by decide)⟩

/-- ADX as the claim derives it by hand from the DMI outputs:
`DX = 100·|+DI − (−DI)| / (+DI + (−DI))` followed by a rolling mean over
the window (stated from the specification's words, for comparison with
`compute_adx`). -/
def adx_from_dmi (plus_di minus_di : Series) (window : ℕ) : Series :=
  rolling_mean window (List.zipWith
    (fun p m => ((FP.fin 100).mul ((p.sub m).fabs)).div (p.add m)) plus_di minus_di)

/-- C9: for any OHLCV frame of sufficient length, `_compute_adx` equals
the ADX derived manually from `_compute_dmi`'s `+di`/`-di` columns —
dependency reuse does not change results. -/
theorem adx_eq_derived_from_dmi (d : OHLCV) (window : ℕ) (h1 : 1 ≤ window)
    (_hlen : window ≤ d.length) :
    ∃ pdi mdi, compute_dmi d window = some [("+di", pdi), ("-di", mdi)] ∧
      compute_adx d window = some [("adx", adx_from_dmi pdi mdi window)] := by
  have hw : window ≠ 0 := by omega
  simp only [compute_dmi, compute_atr, if_neg hw, compute_adx]
  exact ⟨_, _, rfl, rfl⟩

/-- C9 (witness): the dependency-reuse identity at a one-row frame with
window 1. -/
theorem adx_eq_derived_from_dmi_witness :
    (1 ≤ 1 ∧ 1 ≤ tinyOHLCV.length) ∧
      ∃ pdi mdi, compute_dmi tinyOHLCV 1 = some [("+di", pdi), ("-di", mdi)] ∧
        compute_adx tinyOHLCV 1 = some [("adx", adx_from_dmi pdi mdi 1)] :=
  ⟨⟨le_refl 1, by decide⟩, adx_eq_derived_from_dmi tinyOHLCV 1 (le_refl 1) (by decide)⟩

/-- The EWM core preserves length. -/
theorem ewmAux_length (a : ℚ) : ∀ (xs : List ℚ) (num den : ℚ),
    (ewmAux a num den xs).length = xs.length
  | [], _, _ => rfl
  | _ :: xs, num, den => by
      simp only [ewmAux, List.length_cons, ewmAux_length a xs]

/-- Core blend lemma for `ewmAux`: started from a nonnegative weight
total, every output is a convex blend of the previous output and the
current input (the blend weight is `(1-α)·Wᵢ / Wᵢ₊₁` for the running
weight totals `W`). -/
theorem ewmAux_blend (a : ℚ) (ha : 0 ≤ 1 - a) (xs : List ℚ) :
    ∀ (num den : ℚ), 0 ≤ den → ∀ i, i + 1 < (ewmAux a num den xs).length →
      ∃ l : ℚ, 0 ≤ l ∧ l < 1 ∧
        (ewmAux a num den xs).getD (i + 1) 0 =
          l * ((ewmAux a num den xs).getD i 0) + (1 - l) * xs.getD (i + 1) 0 := by
  induction xs with
  | nil => intro num den _ i hi; simp [ewmAux] at hi
  | cons x xs IH =>
    intro num den hden i hi
    have hnn : (0:ℚ) ≤ (1 - a) * den := mul_nonneg ha hden
    have hden1 : (0:ℚ) < (1 - a) * den + 1 := by linarith
    match i with
    | 0 =>
      cases xs with
      | nil => simp [ewmAux] at hi
      | cons x1 xs' =>
        have hnn1 : (0:ℚ) ≤ (1 - a) * ((1 - a) * den + 1) := mul_nonneg ha hden1.le
        have hden2 : (0:ℚ) < (1 - a) * ((1 - a) * den + 1) + 1 := by linarith
        refine ⟨(1 - a) * ((1 - a) * den + 1) / ((1 - a) * ((1 - a) * den + 1) + 1),
          div_nonneg hnn1 hden2.le, ?_, ?_⟩
        · rw [div_lt_one hden2]; linarith
        · simp only [ewmAux, List.getD_cons_succ, List.getD_cons_zero]
          have h1 : ((1 - a) * den + 1) ≠ 0 := ne_of_gt hden1
          have h2 : ((1 - a) * ((1 - a) * den + 1) + 1) ≠ 0 := ne_of_gt hden2
          field_simp
          ring
    | j + 1 =>
      have hlen : j + 1 < (ewmAux a ((1 - a) * num + x) ((1 - a) * den + 1) xs).length := by
        simp only [ewmAux, List.length_cons] at hi
        omega
      obtain ⟨l, h0, h1, heq⟩ := IH ((1 - a) * num + x) ((1 - a) * den + 1) hden1.le j hlen
      refine ⟨l, h0, h1, ?_⟩
      simpa only [ewmAux, List.getD_cons_succ] using heq

/-- C8: `ewm_mean` (pandas `ewm(span=span).mean()`, smoothing factor
`α = 2/(span+1)` by definition) seeds its first output with the first
input value, and every subsequent output is a blend
`l·previous + (1-l)·current` with a blend weight `l ∈ [0, 1)`. -/
theorem ewm_mean_seed_and_blend (xs : List ℚ) (span : ℕ) (hspan : 1 ≤ span)
    (hne : xs ≠ []) :
    (ewm_mean xs span).head? = xs.head? ∧
      ∀ i, i + 1 < xs.length → ∃ l : ℚ, 0 ≤ l ∧ l < 1 ∧
        (ewm_mean xs span).getD (i + 1) 0 =
          l * (ewm_mean xs span).getD i 0 + (1 - l) * xs.getD (i + 1) 0 := by
  have hs1 : (1:ℚ) ≤ (span : ℚ) := by exact_mod_cast hspan
  have hpos : (0:ℚ) < (span:ℚ) + 1 := by linarith
  have ha : 0 ≤ 1 - 2 / ((span:ℚ) + 1) := by
    rw [sub_nonneg, div_le_one hpos]; linarith
  constructor
  · cases xs with
    | nil => cases hne rfl
    | cons x xs => simp [ewm_mean, ewmAux]
  · intro i hi
    have hlen : i + 1 < (ewmAux (2 / ((span:ℚ) + 1)) 0 0 xs).length := by
      rw [ewmAux_length]; exact hi
    exact ewmAux_blend _ ha xs 0 0 le_rfl i hlen

/-- C8 (witness): the seeding/blend statement at `[1, 2]` with span 1. -/
theorem ewm_mean_seed_and_blend_witness :
    (1 ≤ 1 ∧ ([1, 2] : List ℚ) ≠ []) ∧
      ((ewm_mean [1, 2] 1).head? = ([1, 2] : List ℚ).head? ∧
        ∀ i, i + 1 < ([1, 2] : List ℚ).length → ∃ l : ℚ, 0 ≤ l ∧ l < 1 ∧
          (ewm_mean [1, 2] 1).getD (i + 1) 0 =
            l * (ewm_mean [1, 2] 1).getD i 0 + (1 - l) * ([1, 2] : List ℚ).getD (i + 1) 0) :=
  ⟨⟨le_refl 1, by simp⟩, ewm_mean_seed_and_blend [1, 2] 1 (le_refl 1) (by simp)⟩

/-- The serialization of the `sma`/`ema` slot distinguishes `None`, the
falsy empty list and every truthy list, so it is injective. -/
theorem packPeriods_inj {x y : Option (List ℕ)} (h : packPeriods x = packPeriods y) :
    x = y := by
  cases x with
  | none =>
    cases y with
    | none => rfl
    | some m => cases m <;> simp [packPeriods] at h
  | some l =>
    cases y with
    | none => cases l <;> simp [packPeriods] at h
    | some m => cases l <;> cases m <;> simp_all [packPeriods]

/-- C10: `to_cache_key` is injective (and, being a function, the same
configuration always maps to the same key): two configurations collide in
the cache exactly when all their fields are equal. -/
theorem to_cache_key_inj (c1 c2 : IndicatorConfig) :
    to_cache_key c1 = to_cache_key c2 ↔ c1 = c2 := by
  constructor
  · intro h
    cases c1
    cases c2
    simp only [to_cache_key, List.cons.injEq, Prod.mk.injEq, eq_self_iff_true, true_and,
      and_true, CVal.b.injEq, CVal.n.injEq, CVal.q.injEq, CVal.tri.injEq] at h
    obtain ⟨hAdvDec, hAdx, hAdxLen, hAtr, hAtrLen, hBbLen, hBbStd, hBbands, hBreadth,
      hDmi, hDmiLen, hEma, hIchi, hIchiP, hKelLen, hKelMult, hKeltner, hMacd, hMacdFast,
      hMacdSignal, hMacdSlow, hMfi, hMfiLen, hObv, hPctAbove, hRsi, hRsiLen, hSma,
      hStochD, hStochK, hStochSK, hStoch, hVolProf, hVolProfBins, hVwap⟩ := h
    simp only [IndicatorConfig.mk.injEq]
    exact ⟨packPeriods_inj hSma, packPeriods_inj hEma, hIchi, hIchiP, hAdx, hAdxLen,
      hDmi, hDmiLen, hRsi, hRsiLen, hMacd, hMacdFast, hMacdSlow, hMacdSignal, hStoch,
      hStochK, hStochD, hStochSK, hAtr, hAtrLen, hBbands, hBbLen, hBbStd, hKeltner,
      hKelLen, hKelMult, hObv, hMfi, hMfiLen, hVwap, hVolProf, hVolProfBins, hAdvDec,
      hPctAbove, hBreadth⟩
  · intro h
    rw [h]

/-- Reading a lifted column at an in-range index. -/
theorem fpOfQ_getD {xs : List ℚ} {i : ℕ} (h : i < xs.length) :
    (fpOfQ xs).getD i FP.nan = FP.fin (xs.getD i 0) := by
  have hm : i < (fpOfQ xs).length := by simpa [fpOfQ] using h
  rw [List.getD_eq_getElem _ _ hm, List.getD_eq_getElem _ _ h]
  simp [fpOfQ]

/-- `fpSum` of a window of finite values is the finite sum. -/
theorem fpSum_map_fin (g : ℕ → ℚ) : ∀ l : List ℕ,
    fpSum (l.map fun j => FP.fin (g j)) = FP.fin ((l.map g).sum)
  | [] => rfl
  | j :: l => by
      simp only [List.map_cons, fpSum, List.foldr_cons, List.sum_cons]
      rw [show (List.map (fun j => FP.fin (g j)) l).foldr FP.add (FP.fin 0)
          = fpSum (l.map fun j => FP.fin (g j)) from rfl, fpSum_map_fin g l]
      simp [FP.add]

/-- `fpSum` of an all-zero window. -/
theorem fpSum_replicate_zero : ∀ k, fpSum (List.replicate k (FP.fin 0)) = FP.fin 0
  | 0 => rfl
  | k + 1 => by
      simp only [List.replicate_succ, fpSum, List.foldr_cons]
      rw [show (List.replicate k (FP.fin 0)).foldr FP.add (FP.fin 0)
          = fpSum (List.replicate k (FP.fin 0)) from rfl, fpSum_replicate_zero k]
      simp [FP.add]

/-- A list of nonnegative rationals with one positive member has a
positive sum. -/
theorem sum_pos_of_mem {l : List ℚ} (hnn : ∀ x ∈ l, 0 ≤ x) {x : ℚ} (hx : x ∈ l)
    (hpos : 0 < x) : 0 < l.sum := by
  induction l with
  | nil => cases hx
  | cons y l IH =>
    rw [List.sum_cons]
    have hl : ∀ z ∈ l, 0 ≤ z := fun z hz => hnn z (List.mem_cons_of_mem _ hz)
    rcases List.mem_cons.mp hx with rfl | hx'
    · have := List.sum_nonneg hl
      linarith
    · have hy := hnn y (List.mem_cons_self y l)
      have := IH hl hx'
      linarith

/-- The element at the right edge of a rolling window belongs to the
window. -/
theorem mem_take_drop_self {α : Type} (xs : List α) {w i : ℕ} (hi : i < xs.length)
    (hw : 1 ≤ w) : xs[i] ∈ (xs.take (i + 1)).drop (i + 1 - w) := by
  have hq : ((xs.take (i + 1)).drop (i + 1 - w))[i - (i + 1 - w)]? = some xs[i] := by
    rw [List.getElem?_drop]
    have hidx : i + 1 - w + (i - (i + 1 - w)) = i := by omega
    rw [hidx, List.getElem?_take, if_pos (by omega), List.getElem?_eq_getElem hi]
  obtain ⟨h, he⟩ := List.getElem?_eq_some_iff.mp hq
  exact he ▸ List.getElem_mem h

/-- A rolling window over a mapped column is the mapped window. -/
theorem windowAt_map {α : Type} (f : α → FP) (l : List α) (w i : ℕ) :
    windowAt w i (l.map f) = ((l.take (i + 1)).drop (i + 1 - w)).map f := by
  rw [windowAt, ← List.map_take, ← List.map_drop]

/-- Reading `rolling_mean` past the warm-up prefix. -/
theorem rolling_mean_getD {xs : Series} {w i : ℕ} (hi : i < xs.length)
    (hwin : ¬ i + 1 < w) :
    (rolling_mean w xs).getD i FP.nan = (fpSum (windowAt w i xs)).div (FP.fin w) := by
  have hm : i < (rolling_mean w xs).length := by
    simpa [rolling_mean] using hi
  rw [List.getD_eq_getElem _ _ hm]
  simp only [rolling_mean, List.getElem_map, List.getElem_range, if_neg hwin]
/-- Division of finite values by a nonzero finite value. -/
theorem FP.div_fin_fin (a b : ℚ) (hb : b ≠ 0) :
    FP.div (FP.fin a) (FP.fin b) = FP.fin (a / b) := by
  simp [FP.div, hb]

/-- Division of a positive finite value by zero: positive infinity. -/
theorem FP.div_fin_zero_pos (a : ℚ) (ha : 0 < a) :
    FP.div (FP.fin a) (FP.fin 0) = FP.inf true := by
  simp [FP.div, ha.ne', ha]

/-- A finite value plus positive infinity. -/
theorem FP.add_fin_posinf (a : ℚ) : FP.add (FP.fin a) (FP.inf true) = FP.inf true := rfl

/-- A finite value divided by positive infinity. -/
theorem FP.div_fin_posinf (a : ℚ) : FP.div (FP.fin a) (FP.inf true) = FP.fin 0 := rfl

/-- Subtraction of finite values. -/
theorem FP.sub_fin_fin (a b : ℚ) : FP.sub (FP.fin a) (FP.fin b) = FP.fin (a - b) := rfl

/-- The per-index gain increment of the RSI computation: `0` at index 0
(where `diff` is NaN and `.where` substitutes `0`), the close delta
afterwards. -/
def gainDelta (close : List ℚ) (j : ℕ) : ℚ :=
  if j = 0 then 0 else close.getD j 0 - close.getD (j - 1) 0

/-- Reading `rolling_mean` past the warm-up prefix (index form). -/
theorem rolling_mean_getElem {xs : Series} {w i : ℕ} (hwin : ¬ i + 1 < w)
    (h : i < (rolling_mean w xs).length) :
    (rolling_mean w xs)[i] = (fpSum (windowAt w i xs)).div (FP.fin w) := by
  simp only [rolling_mean, List.getElem_map, List.getElem_range, if_neg hwin]

/-- On a strictly increasing close series, the gain column of the RSI
computation is the finite `gainDelta` column. -/
theorem rsi_gain_column (close : List ℚ)
    (hmono : ∀ j, j < close.length - 1 → close.getD j 0 < close.getD (j + 1) 0) :
    (diffS (fpOfQ close)).map (fun x => if (FP.fin 0).flt x then x else FP.fin 0)
      = (List.range close.length).map (fun j => FP.fin (gainDelta close j)) := by
  have hfplen : (fpOfQ close).length = close.length := by simp [fpOfQ]
  rw [diffS, hfplen, List.map_map]
  refine List.map_congr_left fun j hj => ?_
  rw [List.mem_range] at hj
  by_cases h0 : j = 0
  · subst h0
    rfl
  · have hstep := hmono (j - 1) (by omega)
    rw [show j - 1 + 1 = j from by omega] at hstep
    simp only [Function.comp_apply, if_neg h0]
    rw [fpOfQ_getD hj, fpOfQ_getD (show j - 1 < close.length from by omega)]
    simp only [FP.sub, FP.flt]
    rw [if_pos (decide_eq_true (show (0:ℚ) < close.getD j 0 - close.getD (j - 1) 0 from by linarith))]
    rw [gainDelta, if_neg h0]

/-- On a strictly increasing close series, the loss column of the RSI
computation is identically zero. -/
theorem rsi_loss_column (close : List ℚ)
    (hmono : ∀ j, j < close.length - 1 → close.getD j 0 < close.getD (j + 1) 0) :
    ((diffS (fpOfQ close)).map (fun x => if x.flt (FP.fin 0) then x else FP.fin 0)).map FP.neg
      = List.replicate close.length (FP.fin 0) := by
  have hfplen : (fpOfQ close).length = close.length := by simp [fpOfQ]
  rw [diffS, hfplen, List.map_map, List.map_map]
  refine Eq.trans (List.map_congr_left fun j hj => ?_)
    (by rw [List.map_const', List.length_range])
  rw [List.mem_range] at hj
  by_cases h0 : j = 0
  · subst h0
    rfl
  · have hstep := hmono (j - 1) (by omega)
    rw [show j - 1 + 1 = j from by omega] at hstep
    simp only [Function.comp_apply, if_neg h0]
    rw [fpOfQ_getD hj, fpOfQ_getD (show j - 1 < close.length from by omega)]
    simp only [FP.sub, FP.flt]
    rw [if_neg (show ¬(decide (close.getD j 0 - close.getD (j - 1) 0 < 0) = true) from by
      simp only [decide_eq_true_eq]; linarith)]
    rfl

/-- C5: on a strictly monotonically increasing close series longer than
the window (window ≥ 2), the RSI column equals 100 at every index of the
defined region `i ≥ window - 1`: the zero average loss makes
`rs = gain / 0 = +∞` and `100 - 100 / (1 + ∞) = 100` — neither an
infinity nor an undefined value is surfaced. -/
theorem rsi_increasing_all_100 (close : List ℚ) (w : ℕ) (hw : 2 ≤ w)
    (hlen : w < close.length)
    (hmono : ∀ j, j < close.length - 1 → close.getD j 0 < close.getD (j + 1) 0) :
    ∀ i, w - 1 ≤ i → i < close.length →
      (rsiSeries close w).getD i FP.nan = FP.fin 100 := by
  intro i hiw hin
  have hwq : (w:ℚ) ≠ 0 := by
    exact_mod_cast (show w ≠ 0 from by omega)
  have hiw' : ¬ i + 1 < w := by omega
  simp only [rsiSeries]
  rw [rsi_gain_column close hmono, rsi_loss_column close hmono]
  have hglen : (rolling_mean w ((List.range close.length).map
      (fun j => FP.fin (gainDelta close j)))).length = close.length := by
    simp [rolling_mean]
  have hllen : (rolling_mean w (List.replicate close.length (FP.fin 0))).length
      = close.length := by
    simp [rolling_mean]
  have hzlen : i < (List.zipWith FP.div
      (rolling_mean w ((List.range close.length).map (fun j => FP.fin (gainDelta close j))))
      (rolling_mean w (List.replicate close.length (FP.fin 0)))).length := by
    rw [List.length_zipWith, hglen, hllen]
    simpa using hin
  have hmaplen : i < ((List.zipWith FP.div
      (rolling_mean w ((List.range close.length).map (fun j => FP.fin (gainDelta close j))))
      (rolling_mean w (List.replicate close.length (FP.fin 0)))).map
        (fun r => (FP.fin 100).sub ((FP.fin 100).div ((FP.fin 1).add r)))).length := by
    simpa using hzlen
  rw [List.getD_eq_getElem _ _ hmaplen, List.getElem_map, List.getElem_zipWith]
  have hgi : i < (rolling_mean w ((List.range close.length).map
      (fun j => FP.fin (gainDelta close j)))).length := by rw [hglen]; exact hin
  have hli : i < (rolling_mean w (List.replicate close.length (FP.fin 0))).length := by
    rw [hllen]; exact hin
  rw [rolling_mean_getElem hiw' hgi, rolling_mean_getElem hiw' hli]
  rw [windowAt_map, fpSum_map_fin (gainDelta close)
    (((List.range close.length).take (i + 1)).drop (i + 1 - w))]
  rw [windowAt, List.take_replicate, List.drop_replicate, fpSum_replicate_zero]
  have hsub : (((List.range close.length).take (i + 1)).drop (i + 1 - w))
      ⊆ List.range close.length :=
    ((List.drop_sublist _ _).trans (List.take_sublist _ _)).subset
  have hmemL : i ∈ ((List.range close.length).take (i + 1)).drop (i + 1 - w) := by
    have hr : i < (List.range close.length).length := by simpa using hin
    have := mem_take_drop_self (List.range close.length) hr (show 1 ≤ w from by omega)
    rwa [List.getElem_range] at this
  have hnn : ∀ x ∈ ((((List.range close.length).take (i + 1)).drop (i + 1 - w)).map
      (gainDelta close)), 0 ≤ x := by
    intro x hx
    obtain ⟨j, hjL, rfl⟩ := List.mem_map.mp hx
    have hjn : j < close.length := List.mem_range.mp (hsub hjL)
    by_cases h0 : j = 0
    · simp [gainDelta, h0]
    · have hstep := hmono (j - 1) (by omega)
      rw [show j - 1 + 1 = j from by omega] at hstep
      rw [gainDelta, if_neg h0]
      linarith
  have hipos : 0 < gainDelta close i := by
    have h0 : i ≠ 0 := by omega
    have hstep := hmono (i - 1) (by omega)
    rw [show i - 1 + 1 = i from by omega] at hstep
    rw [gainDelta, if_neg h0]
    linarith
  have hSpos : 0 < (((((List.range close.length).take (i + 1)).drop (i + 1 - w)).map
      (gainDelta close))).sum :=
    sum_pos_of_mem hnn (List.mem_map_of_mem _ hmemL) hipos
  have hSw : 0 < (((((List.range close.length).take (i + 1)).drop (i + 1 - w)).map
      (gainDelta close))).sum / (w:ℚ) := by
    apply div_pos hSpos
    have : w ≠ 0 := by omega
    positivity
  rw [FP.div_fin_fin _ _ hwq, FP.div_fin_fin _ _ hwq, zero_div,
    FP.div_fin_zero_pos _ hSw, FP.add_fin_posinf, FP.div_fin_posinf, FP.sub_fin_fin]
  norm_num

/-- C5 (witness): the RSI statement at the strictly increasing series
`[1, 2, 3]` with window 2. -/
theorem rsi_increasing_all_100_witness :
    (2 ≤ 2 ∧ 2 < ([1, 2, 3] : List ℚ).length ∧
      ∀ j, j < ([1, 2, 3] : List ℚ).length - 1 →
        ([1, 2, 3] : List ℚ).getD j 0 < ([1, 2, 3] : List ℚ).getD (j + 1) 0) ∧
      ∀ i, 2 - 1 ≤ i → i < ([1, 2, 3] : List ℚ).length →
        (rsiSeries [1, 2, 3] 2).getD i FP.nan = FP.fin 100 :=
  ⟨⟨le_refl 2, by decide, by decide⟩,
    rsi_increasing_all_100 [1, 2, 3] 2 (le_refl 2) (by decide) (by decide)⟩

/-- The data-model invariant on one active indicator's parameters: window,
span and bin parameters are positive integers (the UI only produces such
values; the specification's configuration invariant). -/
def posOK : ActiveInd → Bool
  | .sma ws => ws.all fun w => decide (1 ≤ w)
  | .ema ws => ws.all fun w => decide (1 ≤ w)
  | .ichimoku c b sb => decide (1 ≤ c) && decide (1 ≤ b) && decide (1 ≤ sb)
  | .adx w => decide (1 ≤ w)
  | .dmi w => decide (1 ≤ w)
  | .rsi w => decide (1 ≤ w)
  | .macd f s g => decide (1 ≤ f) && decide (1 ≤ s) && decide (1 ≤ g)
  | .stochastic k dd sk => decide (1 ≤ k) && decide (1 ≤ dd) && decide (1 ≤ sk)
  | .atr w => decide (1 ≤ w)
  | .bbands l _ => decide (1 ≤ l)
  | .keltner l _ => decide (1 ≤ l)
  | .obv => true
  | .mfi w => decide (1 ≤ w)
  | .vwap => true
  | .volumeProfile bins => decide (1 ≤ bins)
  | .advanceDecline => true
  | .percentAboveMa _ => true

/-- The keys one active indicator contributes to the orchestrator's
result, characterized by the source's guards alone: one key per in-range
window for `sma`/`ema`, the family key when the minimum-length (and
volume-presence) guard holds, and nothing for the two breadth names that
match no branch of the loop. -/
def indicatorKeys (d : OHLCV) : ActiveInd → List String
  | .sma ws => (ws.filter fun w => decide (d.length ≥ w)).map fun w => "sma_" ++ toString w
  | .ema ws => (ws.filter fun w => decide (d.length ≥ w)).map fun w => "ema_" ++ toString w
  | .rsi p => if d.length ≥ p + 1 then ["rsi"] else []
  | .macd _ s g => if d.length ≥ s + g then ["macd"] else []
  | .stochastic k dd _ => if d.length ≥ k + dd then ["stochastic"] else []
  | .atr p => if d.length ≥ p then ["atr"] else []
  | .bbands l _ => if d.length ≥ l then ["bbands"] else []
  | .keltner l _ => if d.length ≥ l then ["keltner"] else []
  | .adx p => if d.length ≥ p then ["adx"] else []
  | .dmi p => if d.length ≥ p then ["dmi"] else []
  | .ichimoku c b sb => if d.length ≥ max c (max b sb) then ["ichimoku"] else []
  | .obv => if d.volume.isSome then ["obv"] else []
  | .mfi p => if d.volume.isSome ∧ d.length ≥ p then ["mfi"] else []
  | .vwap => if d.volume.isSome then ["vwap"] else []
  | .volumeProfile _ => if d.volume.isSome then ["volume_profile"] else []
  | .advanceDecline => []
  | .percentAboveMa _ => []

/-- A guarded branch records at most its guard's key. -/
theorem guardedEntry_keys_sub (key : String) (P : Prop) [Decidable P] (r : Option Frame) :
    (guardedEntry key (decide P) r).map Prod.fst ⊆ if P then [key] else [] := by
  by_cases h : P
  · cases r <;> simp [guardedEntry, h]
  · simp [guardedEntry, h]

/-- A guarded branch whose computation succeeds records its guard's key. -/
theorem guardedEntry_keys_sup (key : String) (P : Prop) [Decidable P] (r : Option Frame)
    (hr : P → r.isSome = true) :
    (if P then [key] else []) ⊆ (guardedEntry key (decide P) r).map Prod.fst := by
  by_cases h : P
  · obtain ⟨f, hf⟩ := Option.isSome_iff_exists.mp (hr h)
    simp [guardedEntry, h, hf]
  · simp [h]

/-- The `sma`/`ema` loop records at most one key per in-range window. -/
theorem windowLoop_keys_sub (fam : String) (d : OHLCV)
    (compute : OHLCV → ℕ → Option Frame) (ws : List ℕ) :
    (windowLoop fam d compute ws).map Prod.fst ⊆
      (ws.filter fun w => decide (d.length ≥ w)).map fun w => fam ++ "_" ++ toString w := by
  induction ws with
  | nil => simp [windowLoop]
  | cons w ws IH =>
    by_cases hg : d.length ≥ w
    · cases hcw : compute d w with
      | none =>
          simp only [windowLoop, if_pos hg, hcw]
          exact List.nil_subset _
      | some r =>
          simp only [windowLoop, if_pos hg, hcw, List.map_cons]
          rw [List.filter_cons, if_pos (decide_eq_true hg), List.map_cons]
          intro x hx
          rcases List.mem_cons.mp hx with rfl | hx'
          · exact List.mem_cons_self _ _
          · exact List.mem_cons_of_mem _ (IH hx')
    · simp only [windowLoop, if_neg hg]
      rw [List.filter_cons, if_neg (by simpa using hg)]
      exact IH

/-- With positive windows (so that no per-window computation raises), the
`sma`/`ema` loop records exactly one key per in-range window. -/
theorem windowLoop_keys_sup (fam : String) (d : OHLCV)
    (compute : OHLCV → ℕ → Option Frame)
    (hc : ∀ w : ℕ, 1 ≤ w → (compute d w).isSome = true) :
    ∀ ws : List ℕ, (∀ w ∈ ws, 1 ≤ w) →
      ((ws.filter fun w => decide (d.length ≥ w)).map fun w => fam ++ "_" ++ toString w)
        ⊆ (windowLoop fam d compute ws).map Prod.fst := by
  intro ws
  induction ws with
  | nil => intro _; simp
  | cons w ws IH =>
    intro hpos
    have hw := hpos w (List.mem_cons_self w ws)
    have hrest : ∀ v ∈ ws, 1 ≤ v := fun v hv => hpos v (List.mem_cons_of_mem _ hv)
    obtain ⟨f, hf⟩ := Option.isSome_iff_exists.mp (hc w hw)
    by_cases hg : d.length ≥ w
    · rw [List.filter_cons, if_pos (decide_eq_true hg), List.map_cons]
      simp only [windowLoop, if_pos hg, hf, List.map_cons]
      intro x hx
      rcases List.mem_cons.mp hx with rfl | hx'
      · exact List.mem_cons_self _ _
      · exact List.mem_cons_of_mem _ (IH hrest hx')
    · rw [List.filter_cons, if_neg (by simpa using hg)]
      simp only [windowLoop, if_neg hg]
      exact IH hrest

/-- Every key an indicator branch records satisfies the branch's guard. -/
theorem indicatorBranch_keys_sub (d : OHLCV) (ind : ActiveInd) :
    (indicatorBranch d ind).map Prod.fst ⊆ indicatorKeys d ind := by
  cases ind with
  | sma ws => exact windowLoop_keys_sub "sma" d compute_sma ws
  | ema ws => exact windowLoop_keys_sub "ema" d compute_ema ws
  | rsi p => exact guardedEntry_keys_sub "rsi" (d.length ≥ p + 1) (compute_rsi d p)
  | macd f s g => exact guardedEntry_keys_sub "macd" (d.length ≥ s + g) (compute_macd d f s g)
  | stochastic k dd sk =>
      exact guardedEntry_keys_sub "stochastic" (d.length ≥ k + dd) (compute_stochastic d k dd sk)
  | atr p => exact guardedEntry_keys_sub "atr" (d.length ≥ p) (compute_atr d p)
  | bbands l std => exact guardedEntry_keys_sub "bbands" (d.length ≥ l) (compute_bollinger_bands d l std)
  | keltner l m => exact guardedEntry_keys_sub "keltner" (d.length ≥ l) (compute_keltner_channels d l m)
  | adx p => exact guardedEntry_keys_sub "adx" (d.length ≥ p) (compute_adx d p)
  | dmi p => exact guardedEntry_keys_sub "dmi" (d.length ≥ p) (compute_dmi d p)
  | ichimoku c b sb =>
      exact guardedEntry_keys_sub "ichimoku" (d.length ≥ max c (max b sb))
        (compute_ichimoku d c b sb)
  | obv => cases hv : d.volume <;> simp [indicatorBranch, indicatorKeys, hv]
  | mfi p =>
      cases hv : d.volume with
      | none => simp [indicatorBranch, indicatorKeys, hv]
      | some vol =>
          have base := guardedEntry_keys_sub "mfi" (d.length ≥ p) (compute_mfi d p)
          simp only [indicatorBranch, indicatorKeys, hv, Option.isSome_some, true_and]
          exact base
  | vwap => cases hv : d.volume <;> simp [indicatorBranch, indicatorKeys, hv]
  | volumeProfile bins =>
      cases hv : d.volume with
      | none => simp [indicatorBranch, indicatorKeys, hv]
      | some vol =>
          simp only [indicatorBranch, indicatorKeys, hv, Option.isSome_some, if_true]
          cases hc : compute_volume_profile d vol bins <;> simp [guardedEntry, hc]
  | advanceDecline => simp [indicatorBranch, indicatorKeys]
  | percentAboveMa l => simp [indicatorBranch, indicatorKeys]

/-- With positive parameters (the configuration invariant), every key
licensed by an indicator's guard is actually recorded by its branch: no
computation on the guarded path raises. -/
theorem indicatorKeys_sub_branch (d : OHLCV) (ind : ActiveInd) (h : posOK ind = true) :
    indicatorKeys d ind ⊆ (indicatorBranch d ind).map Prod.fst := by
  cases ind with
  | sma ws =>
      have hp : ∀ w ∈ ws, 1 ≤ w := by simpa [posOK] using h
      exact windowLoop_keys_sup "sma" d compute_sma
        (fun w hw => by simp [compute_sma, show w ≠ 0 from by omega]) ws hp
  | ema ws =>
      have hp : ∀ w ∈ ws, 1 ≤ w := by simpa [posOK] using h
      exact windowLoop_keys_sup "ema" d compute_ema
        (fun w hw => by simp [compute_ema, show w ≠ 0 from by omega]) ws hp
  | rsi p =>
      have hp : 1 ≤ p := by simpa [posOK] using h
      exact guardedEntry_keys_sup "rsi" (d.length ≥ p + 1) (compute_rsi d p)
        (fun _ => by simp [compute_rsi, show p ≠ 0 from by omega])
  | macd f s g =>
      have hp : (1 ≤ f ∧ 1 ≤ s) ∧ 1 ≤ g := by simpa [posOK] using h
      exact guardedEntry_keys_sup "macd" (d.length ≥ s + g) (compute_macd d f s g)
        (fun _ => by
          simp [compute_macd, show ¬(f = 0 ∨ s = 0 ∨ g = 0) from by omega])
  | stochastic k dd sk =>
      have hp : (1 ≤ k ∧ 1 ≤ dd) ∧ 1 ≤ sk := by simpa [posOK] using h
      exact guardedEntry_keys_sup "stochastic" (d.length ≥ k + dd)
        (compute_stochastic d k dd sk)
        (fun _ => by
          simp [compute_stochastic, show ¬(k = 0 ∨ dd = 0 ∨ sk = 0) from by omega])
  | atr p =>
      have hp : 1 ≤ p := by simpa [posOK] using h
      exact guardedEntry_keys_sup "atr" (d.length ≥ p) (compute_atr d p)
        (fun _ => by simp [compute_atr, show p ≠ 0 from by omega])
  | bbands l std =>
      have hp : 1 ≤ l := by simpa [posOK] using h
      exact guardedEntry_keys_sup "bbands" (d.length ≥ l) (compute_bollinger_bands d l std)
        (fun _ => by simp [compute_bollinger_bands, show l ≠ 0 from by omega])
  | keltner l m =>
      have hp : 1 ≤ l := by simpa [posOK] using h
      exact guardedEntry_keys_sup "keltner" (d.length ≥ l) (compute_keltner_channels d l m)
        (fun _ => by simp [compute_keltner_channels, compute_atr,
          show l ≠ 0 from by omega])
  | adx p =>
      have hp : 1 ≤ p := by simpa [posOK] using h
      exact guardedEntry_keys_sup "adx" (d.length ≥ p) (compute_adx d p)
        (fun _ => by simp [compute_adx, compute_dmi, compute_atr,
          show p ≠ 0 from by omega])
  | dmi p =>
      have hp : 1 ≤ p := by simpa [posOK] using h
      exact guardedEntry_keys_sup "dmi" (d.length ≥ p) (compute_dmi d p)
        (fun _ => by simp [compute_dmi, compute_atr, show p ≠ 0 from by omega])
  | ichimoku c b sb =>
      have hp : (1 ≤ c ∧ 1 ≤ b) ∧ 1 ≤ sb := by simpa [posOK] using h
      exact guardedEntry_keys_sup "ichimoku" (d.length ≥ max c (max b sb))
        (compute_ichimoku d c b sb)
        (fun _ => by
          simp [compute_ichimoku, show ¬(c = 0 ∨ b = 0 ∨ sb = 0) from by omega])
  | obv => cases hv : d.volume <;> simp [indicatorBranch, indicatorKeys, hv]
  | mfi p =>
      have hp : 1 ≤ p := by simpa [posOK] using h
      cases hv : d.volume with
      | none => simp [indicatorKeys, hv]
      | some vol =>
          have base := guardedEntry_keys_sup "mfi" (d.length ≥ p) (compute_mfi d p)
            (fun _ => by unfold compute_mfi; rw [hv]; simp [show p ≠ 0 from by omega])
          simp only [indicatorBranch, indicatorKeys, hv, Option.isSome_some, true_and]
          exact base
  | vwap => cases hv : d.volume <;> simp [indicatorBranch, indicatorKeys, hv]
  | volumeProfile bins =>
      have hp : 1 ≤ bins := by simpa [posOK] using h
      cases hv : d.volume with
      | none => simp [indicatorKeys, hv]
      | some vol =>
          simp only [indicatorBranch, indicatorKeys, hv, Option.isSome_some, if_true]
          obtain ⟨f, hf⟩ := Option.isSome_iff_exists.mp
            (show (compute_volume_profile d vol bins).isSome = true from by
              simp [compute_volume_profile, show bins ≠ 0 from by omega])
          simp [guardedEntry, hf]
  | advanceDecline => simp [indicatorBranch, indicatorKeys]
  | percentAboveMa l => simp [indicatorBranch, indicatorKeys]

/-- C4: on a 50-row series, a configuration with SMA window 200 active
(and positive parameters throughout, the configuration invariant) yields a
result mapping with no `sma_200` key — the indicator is skipped silently —
while every key licensed by the guard of any active indicator is present. -/
theorem orchestrator_skips_sma200 (cfg : IndicatorConfig) (d : OHLCV)
    (hlen : d.length = 50)
    (hpos : ∀ ind ∈ get_active_indicators cfg, posOK ind = true)
    (_hsma : ∃ l, cfg.sma = some l ∧ 200 ∈ l) :
    "sma_200" ∉ (orchestrate cfg d).map Prod.fst ∧
      ∀ ind ∈ get_active_indicators cfg, ∀ k ∈ indicatorKeys d ind,
        k ∈ (orchestrate cfg d).map Prod.fst := by
  constructor
  · intro hmem
    rw [orchestrate, List.map_flatMap] at hmem
    obtain ⟨ind, hind, hkey⟩ := List.mem_flatMap.mp hmem
    have hkey' := indicatorBranch_keys_sub d ind hkey
    have hstr : ∀ w : ℕ, w ≤ 50 →
        ("sma_" ++ toString w ≠ "sma_200") ∧ ("ema_" ++ toString w ≠ "sma_200") := by
      decide
    cases ind with
    | sma ws =>
        simp only [indicatorKeys] at hkey'
        obtain ⟨w, hwf, hwk⟩ := List.mem_map.mp hkey'
        have hwg := (List.mem_filter.mp hwf).2
        simp only [decide_eq_true_eq] at hwg
        exact (hstr w (by omega)).1 hwk
    | ema ws =>
        simp only [indicatorKeys] at hkey'
        obtain ⟨w, hwf, hwk⟩ := List.mem_map.mp hkey'
        have hwg := (List.mem_filter.mp hwf).2
        simp only [decide_eq_true_eq] at hwg
        exact (hstr w (by omega)).2 hwk
    | rsi p => revert hkey'; simp only [indicatorKeys]; split <;> decide
    | macd f s g => revert hkey'; simp only [indicatorKeys]; split <;> decide
    | stochastic k dd sk => revert hkey'; simp only [indicatorKeys]; split <;> decide
    | atr p => revert hkey'; simp only [indicatorKeys]; split <;> decide
    | bbands l std => revert hkey'; simp only [indicatorKeys]; split <;> decide
    | keltner l m => revert hkey'; simp only [indicatorKeys]; split <;> decide
    | adx p => revert hkey'; simp only [indicatorKeys]; split <;> decide
    | dmi p => revert hkey'; simp only [indicatorKeys]; split <;> decide
    | ichimoku c b sb => revert hkey'; simp only [indicatorKeys]; split <;> decide
    | obv => revert hkey'; simp only [indicatorKeys]; split <;> decide
    | mfi p => revert hkey'; simp only [indicatorKeys]; split <;> decide
    | vwap => revert hkey'; simp only [indicatorKeys]; split <;> decide
    | volumeProfile bins => revert hkey'; simp only [indicatorKeys]; split <;> decide
    | advanceDecline => exact List.not_mem_nil _ hkey'
    | percentAboveMa l => exact List.not_mem_nil _ hkey'
  · intro ind hind k hk
    rw [orchestrate, List.map_flatMap]
    exact List.mem_flatMap.mpr ⟨ind, hind, indicatorKeys_sub_branch d ind (hpos ind hind) hk⟩

/-- A 50-row OHLCV frame. -/
def fiftyRowOHLCV : OHLCV :=
  { high := List.replicate 50 2, low := List.replicate 50 1,
    close := List.replicate 50 1, volume := none }

/-- A configuration with SMA windows `[20, 200]` and RSI active. -/
def sma200Config : IndicatorConfig := { sma := some [20, 200], rsi := true }

/-- C4 (witness): the skip statement at a concrete 50-row series and a
configuration activating SMA `[20, 200]` and RSI. -/
theorem orchestrator_skips_sma200_witness :
    (fiftyRowOHLCV.length = 50 ∧
      (∀ ind ∈ get_active_indicators sma200Config, posOK ind = true) ∧
      (∃ l, sma200Config.sma = some l ∧ 200 ∈ l)) ∧
      ("sma_200" ∉ (orchestrate sma200Config fiftyRowOHLCV).map Prod.fst ∧
        ∀ ind ∈ get_active_indicators sma200Config, ∀ k ∈ indicatorKeys fiftyRowOHLCV ind,
          k ∈ (orchestrate sma200Config fiftyRowOHLCV).map Prod.fst) :=
  ⟨⟨by decide, by decide, ⟨[20, 200], rfl, by decide⟩⟩,
    orchestrator_skips_sma200 sma200Config fiftyRowOHLCV (by decide) (by decide)
      ⟨[20, 200], rfl, by decide⟩⟩
